import Mathlib

/-!
Verification of the incremental chunking-and-ingestion engine of the
`lmstudio_rag` repository (`src/rag_manager.py` and `src/save_to_chroma.py`;
the two files duplicate the relevant logic line for line, so one embedding
covers both).

Texts are modelled as `List Char`, Python slices as `drop`/`take`, and the
external collaborators (the ChromaDB store, the LM Studio embedding API and
the file system) as explicit values or oracle functions passed in as
arguments.  All definitions are executable.
-/

/-! ## Text processing: `TextProcessor.recursive_split` and helpers -/

/-- The character class stripped by Python's `str.strip()` (the ASCII
whitespace characters; the inputs in this development are ASCII). -/
def pyIsSpace (c : Char) : Bool :=
  c == ' ' || c == '\t' || c == '\n' || c == '\r' || c == '\x0b' || c == '\x0c'

/-- Python `s.strip()`: remove leading and trailing whitespace. -/
def pyStrip (s : List Char) : List Char :=
  ((s.dropWhile pyIsSpace).reverse.dropWhile pyIsSpace).reverse

/-- Python `s[a:b]` for `0 ≤ a ≤ b` (the only regime the splitter uses). -/
def pySlice (s : List Char) (a b : Nat) : List Char :=
  (s.drop a).take (b - a)

/-- Python `s.rfind(sep)` for non-empty `sep`: the largest index at which
`sep` occurs in `s`, or `none` when it does not occur (Python returns -1). -/
def rfind (s sep : List Char) : Option Nat :=
  ((List.range (s.length + 1 - sep.length)).reverse).find?
    (fun i => sep.isPrefixOf (s.drop i))

/-- The separator priority list `["\n\n", "\n", ". ", " ", ""]` of
`recursive_split`; the final empty separator (hard cut at `end`) is handled
directly in `bestSplit`. -/
def separators : List (List Char) :=
  [['\n', '\n'], ['\n'], ['.', ' '], [' ']]

/-- The `for sep in separators` loop body of `recursive_split`: find the
split point for the window `[start, e)` with overlap budget `overlap`.
The first separator (in priority order) that occurs in the search area wins,
split after its last occurrence; if none occurs, cut hard at `e`. -/
def bestSplit (text : List Char) (start e overlap : Nat) : Nat :=
  let search_start := max start (e - overlap)
  let search_area := pySlice text search_start e
  match separators.findSome?
      (fun sep => (rfind search_area sep).map
        (fun idx => search_start + idx + sep.length)) with
  | some b => b
  | none => e

/-- The `while start < text_len` loop of `TextProcessor.recursive_split`,
indexed by fuel (the Python loop is a genuine `while`; as shown below the
fuel `text.length + 1` suffices whenever `overlap < chunk_size`, and the
loop indeed does not terminate for some parameters outside that regime,
e.g. `chunk_size = 0`, `overlap = 0`, which `none` reflects). -/
def splitLoop (text : List Char) (chunk_size overlap : Nat) :
    Nat → Nat → List (List Char) → Option (List (List Char))
  | 0, _, _ => none
  | fuel + 1, start, chunks =>
    if start < text.length then
      let e := start + chunk_size
      if text.length ≤ e then
        let chunk := pyStrip (text.drop start)
        some (if chunk.isEmpty then chunks else chunks ++ [chunk])
      else
        let b := bestSplit text start e overlap
        let chunk := pyStrip (pySlice text start b)
        let chunks' := if chunk.isEmpty then chunks else chunks ++ [chunk]
        let start' := if b ≤ e - chunk_size then e - overlap else b
        splitLoop text chunk_size overlap fuel start' chunks'
    else some chunks

/-- Model of `TextProcessor.recursive_split(text, chunk_size, overlap)`. -/
def recursive_split (text : List Char) (chunk_size overlap : Nat) :
    Option (List (List Char)) :=
  if text.isEmpty then some []
  else splitLoop text chunk_size overlap (text.length + 1) 0 []

/-- Total wrapper used by the ingestion model.  `recursive_split` is `some`
whenever `overlap < chunk_size` (proved below), which holds for the
configuration the pipeline passes (`CHUNK_SIZE = 1000`, `CHUNK_OVERLAP =
200`); the `[]` default is never reached in that regime. -/
def recursive_split_total (text : List Char) (chunk_size overlap : Nat) :
    List (List Char) :=
  (recursive_split text chunk_size overlap).getD []

/-! ## Splitter bounds and termination -/

lemma pyStrip_length_le (s : List Char) : (pyStrip s).length ≤ s.length := by
  unfold pyStrip
  calc ((s.dropWhile pyIsSpace).reverse.dropWhile pyIsSpace).reverse.length
      = ((s.dropWhile pyIsSpace).reverse.dropWhile pyIsSpace).length :=
        List.length_reverse _
    _ ≤ (s.dropWhile pyIsSpace).reverse.length :=
        ((s.dropWhile pyIsSpace).reverse.dropWhile_sublist pyIsSpace).length_le
    _ = (s.dropWhile pyIsSpace).length := List.length_reverse _
    _ ≤ s.length := (s.dropWhile_sublist pyIsSpace).length_le

lemma pySlice_length_le (s : List Char) (a b : Nat) :
    (pySlice s a b).length ≤ b - a := by
  unfold pySlice
  calc ((s.drop a).take (b - a)).length = min (b - a) (s.drop a).length :=
        List.length_take _ _
    _ ≤ b - a := Nat.min_le_left _ _

lemma rfind_bound {s sep : List Char} {i : Nat} (h : rfind s sep = some i) :
    i + sep.length ≤ s.length := by
  have hm := List.mem_of_find?_eq_some h
  rw [List.mem_reverse, List.mem_range] at hm
  omega

lemma separators_length_pos : ∀ sep ∈ separators, 0 < sep.length := by decide

lemma bestSplit_bounds (text : List Char) (start cs overlap : Nat)
    (hov : overlap < cs) :
    start < bestSplit text start (start + cs) overlap ∧
    bestSplit text start (start + cs) overlap ≤ start + cs := by
  unfold bestSplit
  have hmax : max start (start + cs - overlap) = start + cs - overlap := by
    apply Nat.max_eq_right; omega
  simp only [hmax]
  split
  · next b heq =>
    obtain ⟨sep, hsep, hf⟩ := List.exists_of_findSome?_eq_some heq
    obtain ⟨idx, hr, hb⟩ := Option.map_eq_some'.mp hf
    have h1 := rfind_bound hr
    have h2 := pySlice_length_le text (start + cs - overlap) (start + cs)
    have h3 := separators_length_pos sep hsep
    omega
  · next _ => omega

lemma splitLoop_spec (text : List Char) (cs ov : Nat) (hov : ov < cs) :
    ∀ fuel start chunks, text.length - start < fuel →
      (∀ c ∈ chunks, c.length ≤ cs) →
      ∃ r, splitLoop text cs ov fuel start chunks = some r ∧
        ∀ c ∈ r, c.length ≤ cs := by
  intro fuel
  induction fuel with
  | zero => intro start chunks h _; omega
  | succ fuel ih =>
    intro start chunks hfuel hchunks
    rw [splitLoop]
    by_cases hs : start < text.length
    · rw [if_pos hs]
      by_cases hend : text.length ≤ start + cs
      · simp only [if_pos hend]
        refine ⟨_, rfl, ?_⟩
        intro c hc
        by_cases hne : (pyStrip (text.drop start)).isEmpty
        · rw [if_pos hne] at hc
          exact hchunks c hc
        · rw [if_neg hne] at hc
          rcases List.mem_append.mp hc with h | h
          · exact hchunks c h
          · have hc' : c = pyStrip (text.drop start) := by simpa using h
            subst hc'
            calc (pyStrip (text.drop start)).length
                ≤ (text.drop start).length := pyStrip_length_le _
              _ = text.length - start := List.length_drop _ _
              _ ≤ cs := by omega
      · simp only [if_neg hend]
        obtain ⟨hlt, hle⟩ := bestSplit_bounds text start cs ov hov
        set b := bestSplit text start (start + cs) ov with hbdef
        have hguard : ¬ b ≤ start + cs - cs := by omega
        rw [if_neg hguard]
        apply ih
        · omega
        · intro c hc
          by_cases hne : (pyStrip (pySlice text start b)).isEmpty
          · rw [if_pos hne] at hc
            exact hchunks c hc
          · rw [if_neg hne] at hc
            rcases List.mem_append.mp hc with h | h
            · exact hchunks c h
            · have hc' : c = pyStrip (pySlice text start b) := by simpa using h
              subst hc'
              calc (pyStrip (pySlice text start b)).length
                  ≤ b - start := le_trans (pyStrip_length_le _)
                    (pySlice_length_le _ _ _)
                _ ≤ cs := by omega
    · rw [if_neg hs]
      exact ⟨chunks, rfl, hchunks⟩

/-- C2: for every input text and every pair `(chunkSize, overlap)` with
`chunkSize > 0` and `overlap < chunkSize`, `recursive_split` terminates
(the fuel `text.length + 1` always suffices, i.e. the loop makes forward
progress on every iteration), and every chunk in the returned list has
length at most `chunkSize`. -/
theorem recursive_split_terminates (text : List Char) (cs ov : Nat)
    (_hcs : 0 < cs) (hov : ov < cs) :
    ∃ r, recursive_split text cs ov = some r ∧ ∀ c ∈ r, c.length ≤ cs := by
  unfold recursive_split
  by_cases he : text.isEmpty
  · rw [if_pos he]
    exact ⟨[], rfl, by simp⟩
  · rw [if_neg he]
    exact splitLoop_spec text cs ov hov (text.length + 1) 0 []
      (by omega) (by simp)

theorem recursive_split_terminates_witness :
    0 < 6 ∧ 2 < 6 ∧
    ∃ r, recursive_split "AAAA\n\nBBBB\n\nCCCC".toList 6 2 = some r ∧
      ∀ c ∈ r, c.length ≤ 6 :=
  ⟨by decide, by decide,
    recursive_split_terminates "AAAA\n\nBBBB\n\nCCCC".toList 6 2
      (by decide) (by decide)⟩

/-- C8 (counterexample): the singleton space `" "` is shorter than the chunk
size `2` and non-empty, yet `recursive_split` returns the empty list rather
than the claimed single chunk: whitespace-only chunks are dropped after
stripping. -/
theorem recursive_split_short_counterexample :
    ([' '] : List Char) ≠ [] ∧ ([' '] : List Char).length < 2 ∧
    recursive_split [' '] 2 0 = some [] ∧
    ∀ r : List (List Char), recursive_split [' '] 2 0 = some r →
      r.length ≠ 1 := by decide

/-- C8 (amended): for every input text shorter than `chunkSize`,
`recursive_split` returns the empty list when the whitespace-trimmed text is
empty (in particular for empty input), and otherwise exactly one chunk equal
to the whitespace-trimmed input text. -/
theorem recursive_split_short (text : List Char) (cs ov : Nat)
    (h : text.length < cs) :
    recursive_split text cs ov =
      some (if (pyStrip text).isEmpty then [] else [pyStrip text]) := by
  unfold recursive_split
  by_cases he : text.isEmpty
  · rw [if_pos he]
    have htext : text = [] := List.isEmpty_iff.mp he
    subst htext
    simp [pyStrip]
  · rw [if_neg he]
    have h0 : 0 < text.length := by
      cases text with
      | nil => simp at he
      | cons a l => simp
    rw [splitLoop, if_pos h0]
    have hend : text.length ≤ 0 + cs := by omega
    simp only [if_pos hend, List.drop_zero, List.nil_append]

theorem recursive_split_short_witness :
    ("ab".toList).length < 6 ∧
    recursive_split "ab".toList 6 3 =
      some (if (pyStrip "ab".toList).isEmpty then [] else [pyStrip "ab".toList]) :=
  ⟨by decide, recursive_split_short "ab".toList 6 3 (by decide)⟩

/-- C9: the concrete splitting example: `"AAAA\n\nBBBB\n\nCCCC"` with
`chunkSize = 6` and `overlap = 2` drops no letters — the whitespace-free
residue of the concatenated chunks equals the whitespace-free residue of the
input, namely `"AAAABBBBCCCC"`, so every letter appears in order. -/
theorem recursive_split_no_letter_loss :
    recursive_split "AAAA\n\nBBBB\n\nCCCC".toList 6 2 =
      some ["AAAA".toList, "BBBB".toList, "CCCC".toList] ∧
    (["AAAA".toList, "BBBB".toList, "CCCC".toList].flatten.filter
      (fun c => !(pyIsSpace c))) = "AAAABBBBCCCC".toList ∧
    ("AAAA\n\nBBBB\n\nCCCC".toList.filter (fun c => !(pyIsSpace c))) =
      "AAAABBBBCCCC".toList := by decide

/-! ## Embeddings: `VectorDBManager.get_embeddings`

The LM Studio embedding API is an oracle `respond` mapping the submitted
(cleaned) texts to an optional list of response items (`none` models a
raised exception, which `get_embeddings` re-raises).  Vector payloads are
opaque to the code, modelled as `List Int`. -/

structure EmbedItem where
  index : Nat
  embedding : List Int
deriving DecidableEq

/-- Python `t.replace("\n", " ")`. -/
def pyReplaceNl (t : List Char) : List Char :=
  t.map (fun c => if c = '\n' then ' ' else c)

/-- The key order of `sorted(resp.data, key=lambda x: x.index)`. -/
def embedLe (a b : EmbedItem) : Prop := a.index ≤ b.index

instance : DecidableRel embedLe := fun a b => Nat.decLe a.index b.index

instance : IsTotal EmbedItem embedLe := ⟨fun a b => Nat.le_total a.index b.index⟩

instance : IsTrans EmbedItem embedLe := ⟨fun _ _ _ h1 h2 => Nat.le_trans h1 h2⟩

/-- Model of `sorted(resp.data, key=lambda x: x.index)`.  Python's `sorted` is a
stable ascending sort by the key; a stable sort's output is unique, so the
(stable) insertion sort is an exact model. -/
def pySortByIndex (data : List EmbedItem) : List EmbedItem :=
  List.insertionSort embedLe data

/-- Model of `VectorDBManager.get_embeddings(texts)`: replace newlines by spaces,
submit the batch, sort the response by its per-item `index` field and
project out the vectors.  `none` models the re-raised API exception. -/
def get_embeddings (respond : List (List Char) → Option (List EmbedItem))
    (texts : List (List Char)) : Option (List (List Int)) :=
  match respond (texts.map pyReplaceNl) with
  | none => none
  | some data => some ((pySortByIndex data).map (fun x => x.embedding))

/-- C1: for every batch of texts and every order in which the embedding
capability returns its response items (any permutation: the indices are
`0..n-1` in some order), `get_embeddings` re-sorts by the per-item `index`
field, so the vector at position `i` of the result is exactly the vector of
the response item whose `index` equals `i`. -/
theorem get_embeddings_resorts
    (respond : List (List Char) → Option (List EmbedItem))
    (texts : List (List Char)) (data : List EmbedItem)
    (hresp : respond (texts.map pyReplaceNl) = some data)
    (hidx : (data.map (fun x => x.index)).Perm (List.range data.length)) :
    ∃ vs, get_embeddings respond texts = some vs ∧
      ∀ item ∈ data, vs[item.index]? = some item.embedding := by
  refine ⟨(pySortByIndex data).map (fun x => x.embedding), ?_, ?_⟩
  · unfold get_embeddings
    rw [hresp]
  · intro item hitem
    have hperm : (pySortByIndex data).Perm data :=
      List.perm_insertionSort embedLe data
    have hsorted : List.Sorted embedLe (pySortByIndex data) :=
      List.sorted_insertionSort embedLe data
    have hmapsorted :
        List.Sorted (· ≤ ·) ((pySortByIndex data).map (fun x => x.index)) :=
      @List.Pairwise.map Nat EmbedItem embedLe (pySortByIndex data)
        (fun a b => a ≤ b) (fun x => x.index) (fun _ _ h => h) hsorted
    have hmapperm :
        ((pySortByIndex data).map (fun x => x.index)).Perm
          (List.range data.length) :=
      (hperm.map (fun x => x.index)).trans hidx
    have hrangesorted : List.Sorted (· ≤ ·) (List.range data.length) :=
      List.Pairwise.imp le_of_lt (List.pairwise_lt_range data.length)
    have heq : (pySortByIndex data).map (fun x => x.index) =
        List.range data.length :=
      List.eq_of_perm_of_sorted hmapperm hmapsorted hrangesorted
    have hlen : (pySortByIndex data).length = data.length := hperm.length_eq
    obtain ⟨j, hj, hjeq⟩ := List.mem_iff_getElem.mp (hperm.mem_iff.mpr hitem)
    have hsj : (pySortByIndex data)[j]? = some item := by
      rw [List.getElem?_eq_getElem hj, hjeq]
    have hjn : j < data.length := by rwa [hlen] at hj
    have hji : item.index = j := by
      have h1 := congrArg (fun l => l[j]?) heq
      simp only [List.getElem?_map, hsj, Option.map_some'] at h1
      rw [List.getElem?_range hjn] at h1
      exact Option.some.inj h1
    rw [hji, List.getElem?_map, hsj, Option.map_some']

theorem get_embeddings_resorts_witness :
    (([⟨1, [5]⟩, ⟨0, [7]⟩] : List EmbedItem).map (fun x => x.index)).Perm
      (List.range ([⟨1, [5]⟩, ⟨0, [7]⟩] : List EmbedItem).length) ∧
    ∃ vs, get_embeddings (fun _ => some [⟨1, [5]⟩, ⟨0, [7]⟩]) [['a']] =
        some vs ∧
      ∀ item ∈ ([⟨1, [5]⟩, ⟨0, [7]⟩] : List EmbedItem),
        vs[item.index]? = some item.embedding :=
  ⟨by decide,
    get_embeddings_resorts (fun _ => some [⟨1, [5]⟩, ⟨0, [7]⟩]) [['a']]
      [⟨1, [5]⟩, ⟨0, [7]⟩] rfl (by decide)⟩

/-! ## The store and the ingestion pipeline

The ChromaDB collection is a list of records (`id`, vector, document text,
metadata).  `collection.get(where={"source": ...}, limit=1)` is modelled by
`find?`, `collection.delete(where=...)` by `filter`, `collection.add` by
appending the zipped records.  The file system is modelled per candidate
file by the outcome of `get_file_hash` (`none` = unreadable, i.e. the
`except` branch) and the string `read_file` returns (`""` for unreadable or
unsupported content). -/

structure Meta where
  source : String
  file_hash : String
  chunk_index : Nat
deriving DecidableEq

structure Record where
  id : String
  embedding : List Int
  document : List Char
  metadata : Meta
deriving DecidableEq

structure SourceFile where
  name : String
  hashResult : Option String
  readResult : List Char
deriving DecidableEq

/-- Model of `TextProcessor.get_file_hash`: the md5 hexdigest of the file's bytes
(delivered by the file-system model as `hashResult`), or the sentinel
`"error_hash"` when reading raises. -/
def get_file_hash (f : SourceFile) : String :=
  match f.hashResult with
  | some digest => digest
  | none => "error_hash"

/-- Model of `VectorDBManager.file_needs_update`: probe one record of the source and
compare its stored hash. -/
def file_needs_update (coll : List Record) (filename : String)
    (current_hash : String) : Bool :=
  match coll.find? (fun r => r.metadata.source == filename) with
  | none => true
  | some r => r.metadata.file_hash != current_hash

/-- Model of `VectorDBManager.clean_file_chunks`: delete every record of the source. -/
def clean_file_chunks (coll : List Record) (filename : String) : List Record :=
  coll.filter (fun r => !(r.metadata.source == filename))

/-- Model of `collection.add(ids, embeddings, documents, metadatas)`: zip the four
parallel lists into records. -/
def mkRecords : List String → List (List Int) → List (List Char) →
    List Meta → List Record
  | i :: is, e :: es, t :: ts, m :: ms => ⟨i, e, t, m⟩ :: mkRecords is es ts ms
  | _, _, _, _ => []

/-- The observable actions of one `ingest_files` run, in program order. -/
inductive Event
  | skip (name : String)
  | deleteSource (name : String)
  | embedCall (texts : List (List Char))
  | storeAdd (recs : List Record)
  | batchFail (ids : List String)
deriving DecidableEq

/-- The configuration values `ingest_files` reads from the global `config`. -/
structure Cfg where
  chunk_size : Nat
  chunk_overlap : Nat
  batch_size : Nat
deriving DecidableEq

/-- A pending chunk as accumulated in `batch_docs`. -/
structure Doc where
  id : String
  text : List Char
  metadata : Meta
deriving DecidableEq

/-- The state threaded through the per-file loop of `ingest_files`. -/
structure Phase1State where
  coll : List Record
  events : List Event
  batch_docs : List Doc
  files_processed : Nat
deriving DecidableEq

/-- One iteration of the per-file loop of `ingest_files` (steps 1-3 of the
loop body: hash, change check, purge, read, split, accumulate). -/
def processFile (cfg : Cfg) (s : Phase1State) (f : SourceFile) : Phase1State :=
  let f_hash := get_file_hash f
  if !(file_needs_update s.coll f.name f_hash) then
    { s with events := s.events ++ [Event.skip f.name] }
  else
    let coll := clean_file_chunks s.coll f.name
    let events := s.events ++ [Event.deleteSource f.name]
    if f.readResult.isEmpty then
      { s with coll := coll, events := events }
    else
      let chunks := recursive_split_total f.readResult cfg.chunk_size
        cfg.chunk_overlap
      let docs := chunks.enum.map (fun p =>
        (⟨f.name ++ "_" ++ toString p.1, p.2, ⟨f.name, f_hash, p.1⟩⟩ : Doc))
      { coll := coll, events := events,
        batch_docs := s.batch_docs ++ docs,
        files_processed := s.files_processed + 1 }

/-- The slices `batch_docs[i : i + BATCH_SIZE]` for `i in range(0, total, BATCH_SIZE)`:
the list of successive batches (fuel-indexed so that it computes by
`decide`; `batchesOf` below instantiates the fuel). -/
def batchesOfAux (B : Nat) : Nat → List Doc → List (List Doc)
  | 0, _ => []
  | _, [] => []
  | fuel + 1, d :: rest =>
    (d :: rest.take (B - 1)) :: batchesOfAux B fuel (rest.drop (B - 1))

def batchesOf (B : Nat) (docs : List Doc) : List (List Doc) :=
  batchesOfAux B docs.length docs

/-- The body of the batch-upload loop of `ingest_files`: one batch is
embedded and, when neither the embedding call nor the store write fails,
appended to the collection.  `addOk` is the store-write oracle (`false`
models a raised exception from `collection.add`). -/
def runBatch (respond : List (List Char) → Option (List EmbedItem))
    (addOk : List Record → Bool) (s : List Record × List Event)
    (batch : List Doc) : List Record × List Event :=
  let ids := batch.map (fun d => d.id)
  let texts := batch.map (fun d => d.text)
  let metas := batch.map (fun d => d.metadata)
  let events := s.2 ++ [Event.embedCall texts]
  match get_embeddings respond texts with
  | none => (s.1, events ++ [Event.batchFail ids])
  | some embs =>
    let recs := mkRecords ids embs texts metas
    if addOk recs then (s.1 ++ recs, events ++ [Event.storeAdd recs])
    else (s.1, events ++ [Event.batchFail ids])

/-- The result of one `ingest_files` run: final collection, the events in
order, the accumulated `batch_docs`, and the `files_processed` counter that
the final `[DONE]` line reports. -/
structure IngestResult where
  coll : List Record
  events : List Event
  batch_docs : List Doc
  files_processed : Nat
deriving DecidableEq

/-- Model of `VectorDBManager.ingest_files` on an already-selected list of candidate
files (the interactive range selection of `rag_manager.py` happens before
this logic and only restricts the list): the per-file loop accumulates all
changed files' chunks into `batch_docs`, then the upload loop batches that
list by `BATCH_SIZE` and embeds/upserts batch by batch, isolating per-batch
failures. -/
def ingest_files (cfg : Cfg)
    (respond : List (List Char) → Option (List EmbedItem))
    (addOk : List Record → Bool) (files : List SourceFile)
    (coll0 : List Record) : IngestResult :=
  let s1 := files.foldl (processFile cfg) ⟨coll0, [], [], 0⟩
  let r2 := (batchesOf cfg.batch_size s1.batch_docs).foldl
    (runBatch respond addOk) (s1.coll, s1.events)
  ⟨r2.1, r2.2, s1.batch_docs, s1.files_processed⟩

/-! ## Characterizing one run of `ingest_files` -/

/-- The records of the source `src` (the store view `file_needs_update` and
`clean_file_chunks` act on). -/
def filterSource (coll : List Record) (src : String) : List Record :=
  coll.filter (fun r => r.metadata.source == src)

/-- The embedding result for one batch (`get_embeddings` on the batch's
texts). -/
def batchEmbeds (respond : List (List Char) → Option (List EmbedItem))
    (batch : List Doc) : Option (List (List Int)) :=
  get_embeddings respond (batch.map (fun d => d.text))

/-- The records one batch zips together when its embedding call succeeds. -/
def batchRecs (respond : List (List Char) → Option (List EmbedItem))
    (batch : List Doc) : List Record :=
  match batchEmbeds respond batch with
  | some embs => mkRecords (batch.map (fun d => d.id)) embs
      (batch.map (fun d => d.text)) (batch.map (fun d => d.metadata))
  | none => []

/-- Whether one batch fails (embedding call raises, or the store write
raises). -/
def batchFailed (respond : List (List Char) → Option (List EmbedItem))
    (addOk : List Record → Bool) (batch : List Doc) : Bool :=
  match batchEmbeds respond batch with
  | none => true
  | some embs => !(addOk (mkRecords (batch.map (fun d => d.id)) embs
      (batch.map (fun d => d.text)) (batch.map (fun d => d.metadata))))

/-- The records one batch actually writes to the store. -/
def batchAdded (respond : List (List Char) → Option (List EmbedItem))
    (addOk : List Record → Bool) (batch : List Doc) : List Record :=
  if batchFailed respond addOk batch then [] else batchRecs respond batch

/-- The events one batch emits. -/
def batchEvents (respond : List (List Char) → Option (List EmbedItem))
    (addOk : List Record → Bool) (batch : List Doc) : List Event :=
  Event.embedCall (batch.map (fun d => d.text)) ::
    (if batchFailed respond addOk batch then
      [Event.batchFail (batch.map (fun d => d.id))]
    else [Event.storeAdd (batchRecs respond batch)])

lemma runBatch_eq (respond : List (List Char) → Option (List EmbedItem))
    (addOk : List Record → Bool) (s : List Record × List Event)
    (batch : List Doc) :
    runBatch respond addOk s batch =
      (s.1 ++ batchAdded respond addOk batch,
       s.2 ++ batchEvents respond addOk batch) := by
  unfold runBatch batchAdded batchEvents batchFailed batchRecs batchEmbeds
  rcases h : get_embeddings respond (batch.map (fun d => d.text)) with _ | embs
  · simp [h]
  · by_cases ha : addOk (mkRecords (batch.map (fun d => d.id)) embs
        (batch.map (fun d => d.text)) (batch.map (fun d => d.metadata)))
    · simp [h, ha]
    · simp [h, ha]

lemma foldl_runBatch (respond : List (List Char) → Option (List EmbedItem))
    (addOk : List Record → Bool) :
    ∀ (bs : List (List Doc)) (s : List Record × List Event),
      bs.foldl (runBatch respond addOk) s =
        (s.1 ++ (bs.map (batchAdded respond addOk)).flatten,
         s.2 ++ (bs.map (batchEvents respond addOk)).flatten) := by
  intro bs
  induction bs with
  | nil => intro s; simp
  | cons b bs ih =>
    intro s
    rw [List.foldl_cons, runBatch_eq, ih]
    simp [List.append_assoc]

lemma batchesOfAux_nil (B fuel : Nat) : batchesOfAux B fuel [] = [] := by
  cases fuel <;> rfl

lemma batchesOfAux_fuel_congr (B : Nat) :
    ∀ fuel1 fuel2 docs, docs.length ≤ fuel1 → docs.length ≤ fuel2 →
      batchesOfAux B fuel1 docs = batchesOfAux B fuel2 docs := by
  intro fuel1
  induction fuel1 with
  | zero =>
    intro fuel2 docs h1 _
    have : docs = [] := List.length_eq_zero.mp (Nat.le_zero.mp h1)
    subst this
    rw [batchesOfAux_nil, batchesOfAux_nil]
  | succ fuel1 ih =>
    intro fuel2 docs h1 h2
    cases docs with
    | nil => rw [batchesOfAux_nil, batchesOfAux_nil]
    | cons d rest =>
      cases fuel2 with
      | zero => simp at h2
      | succ fuel2 =>
        show ((d :: rest.take (B - 1)) ::
            batchesOfAux B fuel1 (rest.drop (B - 1))) =
          ((d :: rest.take (B - 1)) ::
            batchesOfAux B fuel2 (rest.drop (B - 1)))
        have hd : (rest.drop (B - 1)).length ≤ rest.length := by
          rw [List.length_drop]; omega
        have hlen : rest.length + 1 ≤ fuel1 + 1 := by simpa using h1
        have hlen2 : rest.length + 1 ≤ fuel2 + 1 := by simpa using h2
        rw [ih fuel2 (rest.drop (B - 1)) (by omega) (by omega)]

lemma batchesOf_cons (B : Nat) (d : Doc) (rest : List Doc) :
    batchesOf B (d :: rest) =
      (d :: rest.take (B - 1)) :: batchesOf B (rest.drop (B - 1)) := by
  show batchesOfAux B (rest.length + 1) (d :: rest) = _
  show ((d :: rest.take (B - 1)) ::
      batchesOfAux B rest.length (rest.drop (B - 1))) = _
  rw [batchesOfAux_fuel_congr B rest.length (rest.drop (B - 1)).length
    (rest.drop (B - 1)) (by rw [List.length_drop]; omega) (Nat.le_refl _)]
  rfl

lemma batchesOf_flatten (B : Nat) :
    ∀ fuel docs, docs.length ≤ fuel → (batchesOf B docs).flatten = docs := by
  intro fuel
  induction fuel with
  | zero =>
    intro docs h
    have : docs = [] := List.length_eq_zero.mp (Nat.le_zero.mp h)
    subst this
    rfl
  | succ fuel ih =>
    intro docs h
    cases docs with
    | nil => rfl
    | cons d rest =>
      rw [batchesOf_cons, List.flatten_cons,
        ih (rest.drop (B - 1)) (by rw [List.length_drop]; simp at h; omega)]
      simp [List.take_append_drop]

lemma mem_of_mem_batchesOf {B : Nat} {docs : List Doc} {b : List Doc}
    {d : Doc} (hb : b ∈ batchesOf B docs) (hd : d ∈ b) : d ∈ docs := by
  have : d ∈ (batchesOf B docs).flatten := List.mem_flatten.mpr ⟨b, hb, hd⟩
  rwa [batchesOf_flatten B docs.length docs (Nat.le_refl _)] at this

lemma processFile_events (cfg : Cfg) (s : Phase1State) (f : SourceFile) :
    ∃ tl, (processFile cfg s f).events = s.events ++ tl ∧
      ∀ e ∈ tl, e = Event.skip f.name ∨ e = Event.deleteSource f.name := by
  unfold processFile
  by_cases h1 : file_needs_update s.coll f.name (get_file_hash f)
  · by_cases h2 : f.readResult.isEmpty
    · exact ⟨[Event.deleteSource f.name], by simp [h1, h2], by simp⟩
    · exact ⟨[Event.deleteSource f.name], by simp [h1, h2], by simp⟩
  · simp only [Bool.not_eq_true] at h1
    exact ⟨[Event.skip f.name], by simp [h1], by simp⟩

lemma foldl_processFile_events (cfg : Cfg) :
    ∀ (fs : List SourceFile) (s : Phase1State),
      ∃ tl, (fs.foldl (processFile cfg) s).events = s.events ++ tl ∧
        ∀ e ∈ tl, (∃ n, e = Event.skip n) ∨ (∃ n, e = Event.deleteSource n) := by
  intro fs
  induction fs with
  | nil => exact fun s => ⟨[], by simp, by simp⟩
  | cons f fs ih =>
    intro s
    obtain ⟨tl1, h1, h1s⟩ := processFile_events cfg s f
    obtain ⟨tl2, h2, h2s⟩ := ih (processFile cfg s f)
    refine ⟨tl1 ++ tl2, ?_, ?_⟩
    · rw [List.foldl_cons, h2, h1, List.append_assoc]
    · intro e he
      rcases List.mem_append.mp he with h | h
      · rcases h1s e h with h | h
        · exact Or.inl ⟨f.name, h⟩
        · exact Or.inr ⟨f.name, h⟩
      · exact h2s e h

lemma batchEvents_shape (respond : List (List Char) → Option (List EmbedItem))
    (addOk : List Record → Bool) (batch : List Doc) :
    ∀ e ∈ batchEvents respond addOk batch,
      (∃ ts, e = Event.embedCall ts) ∨ (∃ rs, e = Event.storeAdd rs) ∨
        (∃ ids, e = Event.batchFail ids) := by
  intro e he
  unfold batchEvents at he
  rcases List.mem_cons.mp he with h | h
  · exact Or.inl ⟨_, h⟩
  · by_cases hf : batchFailed respond addOk batch
    · rw [if_pos hf] at h
      exact Or.inr (Or.inr ⟨_, by simpa using h⟩)
    · rw [if_neg hf] at h
      exact Or.inr (Or.inl ⟨_, by simpa using h⟩)

/-- Projection used to state which texts were submitted to the embedding
capability. -/
def embedTextsOf : Event → Option (List (List Char))
  | Event.embedCall ts => some ts
  | _ => none

lemma batchEvents_filterMap (respond : List (List Char) → Option (List EmbedItem))
    (addOk : List Record → Bool) (batch : List Doc) :
    (batchEvents respond addOk batch).filterMap embedTextsOf =
      [batch.map (fun d => d.text)] := by
  unfold batchEvents
  by_cases hf : batchFailed respond addOk batch <;>
    simp [hf, embedTextsOf]

lemma flatten_batchEvents_filterMap
    (respond : List (List Char) → Option (List EmbedItem))
    (addOk : List Record → Bool) :
    ∀ bs : List (List Doc),
      ((bs.map (batchEvents respond addOk)).flatten).filterMap embedTextsOf =
        bs.map (fun b => b.map (fun d => d.text)) := by
  intro bs
  induction bs with
  | nil => rfl
  | cons b bs ih =>
    simp only [List.map_cons, List.flatten_cons, List.filterMap_append,
      batchEvents_filterMap, ih]
    rfl

lemma filterMap_embedTextsOf_eq_nil {l : List Event}
    (h : ∀ e ∈ l, (∃ n, e = Event.skip n) ∨ (∃ n, e = Event.deleteSource n)) :
    l.filterMap embedTextsOf = [] := by
  induction l with
  | nil => rfl
  | cons e l ih =>
    have he := h e (List.mem_cons_self e l)
    have hnone : embedTextsOf e = none := by
      rcases he with ⟨n, rfl⟩ | ⟨n, rfl⟩ <;> rfl
    rw [List.filterMap_cons, hnone]
    exact ih (fun x hx => h x (List.mem_cons_of_mem e hx))

/-- C3 (counterexample): two one-chunk files ingested with batch size 2 into
an empty store.  Both purges happen first, then a single batch is embedded
and upserted that contains chunks of both files — contradicting both "each
changed file's chunks are grouped into batches containing only that file's
chunks" and "every batch of a file is embedded and upserted before
processing of any later candidate file (including its purge) begins". -/
theorem ingest_two_phase_counterexample :
    (ingest_files ⟨10, 2, 2⟩
        (fun ts => some ((List.range ts.length).map (fun i => ⟨i, [0]⟩)))
        (fun _ => true)
        [⟨"a.txt", some "h1", "AA".toList⟩, ⟨"b.txt", some "h2", "BB".toList⟩]
        []).events =
      [Event.deleteSource "a.txt", Event.deleteSource "b.txt",
       Event.embedCall ["AA".toList, "BB".toList],
       Event.storeAdd
         [⟨"a.txt_0", [0], "AA".toList, ⟨"a.txt", "h1", 0⟩⟩,
          ⟨"b.txt_0", [0], "BB".toList, ⟨"b.txt", "h2", 0⟩⟩]] ∧
    ("a.txt" : String) ≠ "b.txt" := by decide

/-- C3 (amended): an `ingest_files` run is two-phased.  Phase one walks the
candidate files in order and performs only change checks and purges
(`skip`/`deleteSource` events), accumulating all changed files' chunks into
the single cross-file list `batch_docs`; phase two then cuts that list into
fixed-size batches in order and performs all embedding calls and store
writes.  Hence a batch may span several files, and every purge precedes
every embedding call and upsert of the run. -/
theorem ingest_two_phase (cfg : Cfg)
    (respond : List (List Char) → Option (List EmbedItem))
    (addOk : List Record → Bool) (files : List SourceFile)
    (coll0 : List Record) :
    ∃ ev1 ev2,
      (ingest_files cfg respond addOk files coll0).events = ev1 ++ ev2 ∧
      (∀ e ∈ ev1, (∃ n, e = Event.skip n) ∨ (∃ n, e = Event.deleteSource n)) ∧
      (∀ e ∈ ev2, (∃ ts, e = Event.embedCall ts) ∨
        (∃ rs, e = Event.storeAdd rs) ∨ (∃ ids, e = Event.batchFail ids)) ∧
      ev2.filterMap embedTextsOf =
        (batchesOf cfg.batch_size
            (ingest_files cfg respond addOk files coll0).batch_docs).map
          (fun b => b.map (fun d => d.text)) := by
  obtain ⟨tl, h1, h1s⟩ :=
    foldl_processFile_events cfg files ⟨coll0, [], [], 0⟩
  refine ⟨tl, ((batchesOf cfg.batch_size
      (files.foldl (processFile cfg) ⟨coll0, [], [], 0⟩).batch_docs).map
      (batchEvents respond addOk)).flatten, ?_, ?_, ?_, ?_⟩
  · show ((batchesOf cfg.batch_size
        (files.foldl (processFile cfg) ⟨coll0, [], [], 0⟩).batch_docs).foldl
        (runBatch respond addOk)
        ((files.foldl (processFile cfg) ⟨coll0, [], [], 0⟩).coll,
         (files.foldl (processFile cfg) ⟨coll0, [], [], 0⟩).events)).2 = _
    rw [foldl_runBatch]
    simpa using h1
  · intro e he
    exact h1s e (by simpa using he)
  · intro e he
    obtain ⟨ev, hev, hmem⟩ := List.mem_flatten.mp he
    obtain ⟨b, _, rfl⟩ := List.mem_map.mp hev
    exact batchEvents_shape respond addOk b e hmem
  · rw [flatten_batchEvents_filterMap]
    rfl

/-- C5: if the embedding call or the store upsert for one batch fails during
an `ingest_files` run, that batch writes nothing, its failure is reported,
every batch of the run (in particular every subsequent one) still gets its
embedding call, and the final store contents consist of the phase-one
collection plus exactly the records of the non-failing batches — so the
failed batch's chunks are counted as not written. -/
theorem ingest_batch_failure_isolated (cfg : Cfg)
    (respond : List (List Char) → Option (List EmbedItem))
    (addOk : List Record → Bool) (files : List SourceFile)
    (coll0 : List Record) (j : Nat)
    (hj : j < (batchesOf cfg.batch_size
      (ingest_files cfg respond addOk files coll0).batch_docs).length)
    (hfail : batchFailed respond addOk
      ((batchesOf cfg.batch_size
        (ingest_files cfg respond addOk files coll0).batch_docs)[j]) = true) :
    batchAdded respond addOk
      ((batchesOf cfg.batch_size
        (ingest_files cfg respond addOk files coll0).batch_docs)[j]) = [] ∧
    Event.batchFail (((batchesOf cfg.batch_size
        (ingest_files cfg respond addOk files coll0).batch_docs)[j]).map
      (fun d => d.id)) ∈ (ingest_files cfg respond addOk files coll0).events ∧
    (∀ k, (hk : k < (batchesOf cfg.batch_size
        (ingest_files cfg respond addOk files coll0).batch_docs).length) →
      Event.embedCall (((batchesOf cfg.batch_size
          (ingest_files cfg respond addOk files coll0).batch_docs)[k]).map
        (fun d => d.text)) ∈
        (ingest_files cfg respond addOk files coll0).events) ∧
    (ingest_files cfg respond addOk files coll0).coll =
      (files.foldl (processFile cfg) ⟨coll0, [], [], 0⟩).coll ++
      ((batchesOf cfg.batch_size
          (ingest_files cfg respond addOk files coll0).batch_docs).map
        (batchAdded respond addOk)).flatten := by
  have hev : (ingest_files cfg respond addOk files coll0).events =
      (files.foldl (processFile cfg) ⟨coll0, [], [], 0⟩).events ++
      ((batchesOf cfg.batch_size
          (files.foldl (processFile cfg) ⟨coll0, [], [], 0⟩).batch_docs).map
        (batchEvents respond addOk)).flatten := by
    show ((batchesOf cfg.batch_size
        (files.foldl (processFile cfg) ⟨coll0, [], [], 0⟩).batch_docs).foldl
        (runBatch respond addOk)
        ((files.foldl (processFile cfg) ⟨coll0, [], [], 0⟩).coll,
         (files.foldl (processFile cfg) ⟨coll0, [], [], 0⟩).events)).2 = _
    rw [foldl_runBatch]
  have hcoll : (ingest_files cfg respond addOk files coll0).coll =
      (files.foldl (processFile cfg) ⟨coll0, [], [], 0⟩).coll ++
      ((batchesOf cfg.batch_size
          (files.foldl (processFile cfg) ⟨coll0, [], [], 0⟩).batch_docs).map
        (batchAdded respond addOk)).flatten := by
    show ((batchesOf cfg.batch_size
        (files.foldl (processFile cfg) ⟨coll0, [], [], 0⟩).batch_docs).foldl
        (runBatch respond addOk)
        ((files.foldl (processFile cfg) ⟨coll0, [], [], 0⟩).coll,
         (files.foldl (processFile cfg) ⟨coll0, [], [], 0⟩).events)).1 = _
    rw [foldl_runBatch]
  refine ⟨?_, ?_, ?_, hcoll⟩
  · unfold batchAdded
    rw [if_pos hfail]
  · rw [hev]
    apply List.mem_append_right
    apply List.mem_flatten.mpr
    refine ⟨batchEvents respond addOk ((batchesOf cfg.batch_size
      (ingest_files cfg respond addOk files coll0).batch_docs)[j]),
      List.mem_map_of_mem _ (List.getElem_mem hj), ?_⟩
    unfold batchEvents
    rw [if_pos hfail]
    exact List.mem_cons_of_mem _ (List.mem_cons_self _ _)
  · intro k hk
    rw [hev]
    apply List.mem_append_right
    apply List.mem_flatten.mpr
    refine ⟨batchEvents respond addOk ((batchesOf cfg.batch_size
      (ingest_files cfg respond addOk files coll0).batch_docs)[k]),
      List.mem_map_of_mem _ (List.getElem_mem hk), ?_⟩
    unfold batchEvents
    exact List.mem_cons_self _ _

theorem ingest_batch_failure_isolated_witness :
    Event.batchFail ["f_0"] ∈
      (ingest_files ⟨1, 0, 1⟩
        (fun ts => if ts == [['A']] then none
          else some ((List.range ts.length).map (fun i => ⟨i, [0]⟩)))
        (fun _ => true) [⟨"f", some "h", "AB".toList⟩] []).events :=
  (ingest_batch_failure_isolated ⟨1, 0, 1⟩
    (fun ts => if ts == [['A']] then none
      else some ((List.range ts.length).map (fun i => ⟨i, [0]⟩)))
    (fun _ => true) [⟨"f", some "h", "AB".toList⟩] [] 0
    (by decide) (by decide)).2.1

lemma find?_eq_head?_filter {α : Type} (p : α → Bool) (l : List α) :
    l.find? p = (l.filter p).head? := by
  induction l with
  | nil => rfl
  | cons a l ih =>
    by_cases h : p a
    · rw [List.find?_cons_of_pos _ h, List.filter_cons_of_pos h]
      rfl
    · rw [List.find?_cons_of_neg _ h, List.filter_cons_of_neg h]
      exact ih

lemma file_needs_update_congr {c c' : List Record} {m hsh : String}
    (hf : filterSource c m = filterSource c' m) :
    file_needs_update c m hsh = file_needs_update c' m hsh := by
  unfold filterSource at hf
  unfold file_needs_update
  rw [find?_eq_head?_filter, find?_eq_head?_filter, hf]

lemma filterSource_clean {c : List Record} {m n : String} (hne : m ≠ n) :
    filterSource (clean_file_chunks c n) m = filterSource c m := by
  unfold filterSource clean_file_chunks
  rw [List.filter_filter]
  apply List.filter_congr
  intro r _
  by_cases h : r.metadata.source = m
  · have hn : (r.metadata.source == n) = false := by
      rw [beq_eq_false_iff_ne, h]
      exact hne
    simp [h, hn, hne]
  · simp [h]

lemma processFile_skip {cfg : Cfg} {s : Phase1State} {f : SourceFile}
    (h : file_needs_update s.coll f.name (get_file_hash f) = false) :
    processFile cfg s f = { s with events := s.events ++ [Event.skip f.name] } := by
  simp [processFile, h]

lemma processFile_other (cfg : Cfg) (s : Phase1State) {f : SourceFile}
    {m : String} (hne : f.name ≠ m) :
    filterSource (processFile cfg s f).coll m = filterSource s.coll m ∧
    ((processFile cfg s f).batch_docs.filter
        (fun d => d.metadata.source == m)) =
      (s.batch_docs.filter (fun d => d.metadata.source == m)) := by
  have hmn : m ≠ f.name := fun h => hne h.symm
  by_cases h1 : file_needs_update s.coll f.name (get_file_hash f)
  · by_cases h2 : f.readResult.isEmpty
    · simp only [processFile, h1, h2, Bool.not_true, Bool.false_eq_true,
        if_false, if_true]
      exact ⟨filterSource_clean hmn, trivial⟩
    · simp only [processFile, h1, h2, Bool.not_true, Bool.false_eq_true,
        if_false]
      refine ⟨filterSource_clean hmn, ?_⟩
      rw [List.filter_append]
      have hdocs : ((recursive_split_total f.readResult cfg.chunk_size
            cfg.chunk_overlap).enum.map (fun p =>
            (⟨f.name ++ "_" ++ toString p.1, p.2,
              ⟨f.name, get_file_hash f, p.1⟩⟩ : Doc))).filter
          (fun d => d.metadata.source == m) = [] := by
        apply List.filter_eq_nil_iff.mpr
        intro d hd
        obtain ⟨p, _, rfl⟩ := List.mem_map.mp hd
        simpa using hne
      rw [hdocs, List.append_nil]
  · simp only [Bool.not_eq_true] at h1
    simp only [processFile, h1, Bool.not_false, if_true]
    exact ⟨trivial, trivial⟩

lemma foldl_processFile_other (cfg : Cfg) (m : String) :
    ∀ (fs : List SourceFile) (s : Phase1State), (∀ g ∈ fs, g.name ≠ m) →
      filterSource (fs.foldl (processFile cfg) s).coll m =
        filterSource s.coll m ∧
      ((fs.foldl (processFile cfg) s).batch_docs.filter
          (fun d => d.metadata.source == m)) =
        (s.batch_docs.filter (fun d => d.metadata.source == m)) ∧
      ∃ tl, (fs.foldl (processFile cfg) s).events = s.events ++ tl ∧
        ∀ e ∈ tl, ∃ g ∈ fs,
          e = Event.skip g.name ∨ e = Event.deleteSource g.name := by
  intro fs
  induction fs with
  | nil => exact fun s _ => ⟨rfl, rfl, [], by simp, by simp⟩
  | cons f fs ih =>
    intro s hnames
    have hf : f.name ≠ m := hnames f (List.mem_cons_self f fs)
    obtain ⟨hc1, hb1⟩ := processFile_other cfg s hf
    obtain ⟨hc2, hb2, tl2, hev2, h2s⟩ := ih (processFile cfg s f)
      (fun g hg => hnames g (List.mem_cons_of_mem f hg))
    obtain ⟨tl1, hev1eq, h1shape⟩ := processFile_events cfg s f
    refine ⟨by rw [List.foldl_cons, hc2, hc1],
      by rw [List.foldl_cons, hb2, hb1], tl1 ++ tl2, ?_, ?_⟩
    · rw [List.foldl_cons, hev2, hev1eq, List.append_assoc]
    · intro e he
      rcases List.mem_append.mp he with h | h
      · exact ⟨f, List.mem_cons_self f fs, h1shape e h⟩
      · obtain ⟨g, hg, hor⟩ := h2s e h
        exact ⟨g, List.mem_cons_of_mem f hg, hor⟩

lemma mkRecords_metadata_mem :
    ∀ (ids : List String) (embs : List (List Int)) (texts : List (List Char))
      (metas : List Meta) (r : Record), r ∈ mkRecords ids embs texts metas →
      r.metadata ∈ metas := by
  intro ids
  induction ids with
  | nil =>
    intro embs texts metas r h
    simp [mkRecords] at h
  | cons i is ih =>
    intro embs texts metas r h
    cases embs with
    | nil => simp [mkRecords] at h
    | cons e es =>
      cases texts with
      | nil => simp [mkRecords] at h
      | cons t ts =>
        cases metas with
        | nil => simp [mkRecords] at h
        | cons mt ms =>
          rcases List.mem_cons.mp h with h | h
          · subst h
            exact List.mem_cons_self _ _
          · exact List.mem_cons_of_mem _ (ih es ts ms r h)

lemma mem_flatten_batchEvents_embed
    {respond : List (List Char) → Option (List EmbedItem)}
    {addOk : List Record → Bool} {bs : List (List Doc)}
    {ts : List (List Char)}
    (h : Event.embedCall ts ∈ (bs.map (batchEvents respond addOk)).flatten) :
    ∃ b ∈ bs, ts = b.map (fun d => d.text) := by
  obtain ⟨ev, hev, hmem⟩ := List.mem_flatten.mp h
  obtain ⟨b, hb, rfl⟩ := List.mem_map.mp hev
  refine ⟨b, hb, ?_⟩
  unfold batchEvents at hmem
  rcases List.mem_cons.mp hmem with h | h
  · exact (Event.embedCall.inj h.symm).symm
  · by_cases hf : batchFailed respond addOk b
    · rw [if_pos hf] at h
      simp at h
    · rw [if_neg hf] at h
      simp at h

lemma mem_flatten_batchEvents_add
    {respond : List (List Char) → Option (List EmbedItem)}
    {addOk : List Record → Bool} {bs : List (List Doc)} {recs : List Record}
    (h : Event.storeAdd recs ∈ (bs.map (batchEvents respond addOk)).flatten) :
    ∃ b ∈ bs, batchFailed respond addOk b = false ∧
      recs = batchRecs respond b := by
  obtain ⟨ev, hev, hmem⟩ := List.mem_flatten.mp h
  obtain ⟨b, hb, rfl⟩ := List.mem_map.mp hev
  unfold batchEvents at hmem
  rcases List.mem_cons.mp hmem with h | h
  · simp at h
  · by_cases hf : batchFailed respond addOk b
    · rw [if_pos hf] at h
      simp at h
    · rw [if_neg hf] at h
      refine ⟨b, hb, by simp [hf], ?_⟩
      simpa using Event.storeAdd.inj (by simpa using h)

lemma mem_flatten_batchAdded
    {respond : List (List Char) → Option (List EmbedItem)}
    {addOk : List Record → Bool} {bs : List (List Doc)} {r : Record}
    (h : r ∈ (bs.map (batchAdded respond addOk)).flatten) :
    ∃ b ∈ bs, ∃ d ∈ b, r.metadata = d.metadata := by
  obtain ⟨rs, hrs, hmem⟩ := List.mem_flatten.mp h
  obtain ⟨b, hb, rfl⟩ := List.mem_map.mp hrs
  unfold batchAdded at hmem
  by_cases hf : batchFailed respond addOk b
  · rw [if_pos hf] at hmem
    simp at hmem
  · rw [if_neg hf] at hmem
    unfold batchRecs at hmem
    rcases he : batchEmbeds respond b with _ | embs
    · rw [he] at hmem
      simp at hmem
    · rw [he] at hmem
      have := mkRecords_metadata_mem _ _ _ _ r hmem
      obtain ⟨d, hd, hdm⟩ := List.mem_map.mp this
      exact ⟨b, hb, d, hd, hdm.symm⟩

lemma ingest_files_eq (cfg : Cfg)
    (respond : List (List Char) → Option (List EmbedItem))
    (addOk : List Record → Bool) (files : List SourceFile)
    (coll0 : List Record) :
    ingest_files cfg respond addOk files coll0 =
      ⟨(files.foldl (processFile cfg) ⟨coll0, [], [], 0⟩).coll ++
        ((batchesOf cfg.batch_size
            (files.foldl (processFile cfg) ⟨coll0, [], [], 0⟩).batch_docs).map
          (batchAdded respond addOk)).flatten,
       (files.foldl (processFile cfg) ⟨coll0, [], [], 0⟩).events ++
        ((batchesOf cfg.batch_size
            (files.foldl (processFile cfg) ⟨coll0, [], [], 0⟩).batch_docs).map
          (batchEvents respond addOk)).flatten,
       (files.foldl (processFile cfg) ⟨coll0, [], [], 0⟩).batch_docs,
       (files.foldl (processFile cfg) ⟨coll0, [], [], 0⟩).files_processed⟩ := by
  simp only [ingest_files]
  rw [foldl_runBatch]

/-- C6 (counterexample): the store holds two records for source `"f"` with
different hashes (a state the design itself admits after a failed purge,
§7 *StoreWriteError*), one of which matches the file's current fingerprint
`"B"`.  `file_needs_update` only probes the first record (hash `"A"`), so
the file is re-ingested rather than skipped: a purge and a write happen and
the stored records for `"f"` change. -/
theorem ingest_skips_unchanged_counterexample :
    (∃ r ∈ ([⟨"f_0", [0], "X".toList, ⟨"f", "A", 0⟩⟩,
        ⟨"f_1", [0], "Y".toList, ⟨"f", "B", 1⟩⟩] : List Record),
      r.metadata.source = "f" ∧
      r.metadata.file_hash = get_file_hash ⟨"f", some "B", "TXT".toList⟩) ∧
    (ingest_files ⟨10, 2, 50⟩
        (fun ts => some ((List.range ts.length).map (fun i => ⟨i, [0]⟩)))
        (fun _ => true) [⟨"f", some "B", "TXT".toList⟩]
        [⟨"f_0", [0], "X".toList, ⟨"f", "A", 0⟩⟩,
         ⟨"f_1", [0], "Y".toList, ⟨"f", "B", 1⟩⟩]).events =
      [Event.deleteSource "f", Event.embedCall ["TXT".toList],
       Event.storeAdd [⟨"f_0", [0], "TXT".toList, ⟨"f", "B", 0⟩⟩]] ∧
    filterSource (ingest_files ⟨10, 2, 50⟩
        (fun ts => some ((List.range ts.length).map (fun i => ⟨i, [0]⟩)))
        (fun _ => true) [⟨"f", some "B", "TXT".toList⟩]
        [⟨"f_0", [0], "X".toList, ⟨"f", "A", 0⟩⟩,
         ⟨"f_1", [0], "Y".toList, ⟨"f", "B", 1⟩⟩]).coll "f" ≠
      filterSource [⟨"f_0", [0], "X".toList, ⟨"f", "A", 0⟩⟩,
         ⟨"f_1", [0], "Y".toList, ⟨"f", "B", 1⟩⟩] "f" := by
  refine ⟨⟨⟨"f_1", [0], "Y".toList, ⟨"f", "B", 1⟩⟩, by decide, by decide⟩,
    by decide, by decide⟩

/-- C6 (amended): for every candidate file for which the single record the
store's probe returns for that source carries a `file_hash` equal to the
file's current fingerprint (the normal unchanged-file state, where the
source's records all carry one hash), and assuming the other candidate
files have different names (as folder entries do), `ingest_files` reports
the file as skipped, never purges it, batches none of its chunks, leaves its
stored records unchanged, and every embedding call of the run consists only
of chunks accumulated from other files. -/
theorem ingest_skips_unchanged (cfg : Cfg)
    (respond : List (List Char) → Option (List EmbedItem))
    (addOk : List Record → Bool) (coll0 : List Record)
    (pre post : List SourceFile) (f : SourceFile) (r : Record)
    (hprobe : coll0.find? (fun x => x.metadata.source == f.name) = some r)
    (hhash : r.metadata.file_hash = get_file_hash f)
    (hpre : ∀ g ∈ pre, g.name ≠ f.name)
    (hpost : ∀ g ∈ post, g.name ≠ f.name) :
    Event.skip f.name ∈
      (ingest_files cfg respond addOk (pre ++ f :: post) coll0).events ∧
    Event.deleteSource f.name ∉
      (ingest_files cfg respond addOk (pre ++ f :: post) coll0).events ∧
    (∀ d ∈ (ingest_files cfg respond addOk (pre ++ f :: post) coll0).batch_docs,
      d.metadata.source ≠ f.name) ∧
    filterSource
        (ingest_files cfg respond addOk (pre ++ f :: post) coll0).coll f.name =
      filterSource coll0 f.name ∧
    (∀ ts, Event.embedCall ts ∈
        (ingest_files cfg respond addOk (pre ++ f :: post) coll0).events →
      ∀ t ∈ ts, ∃ d ∈
        (ingest_files cfg respond addOk (pre ++ f :: post) coll0).batch_docs,
        d.text = t) := by
  obtain ⟨hA1, hA2, tlA, hAev, hAevs⟩ :=
    foldl_processFile_other cfg f.name pre ⟨coll0, [], [], 0⟩ hpre
  set P := pre.foldl (processFile cfg) ⟨coll0, [], [], 0⟩ with hPdef
  have hneedsA : file_needs_update P.coll f.name (get_file_hash f) = false := by
    have hfs : filterSource P.coll f.name = filterSource coll0 f.name := by
      simpa using hA1
    rw [file_needs_update_congr hfs]
    unfold file_needs_update
    simp only [hprobe, hhash]
    exact bne_self_eq_false _
  set B : Phase1State :=
    { P with events := P.events ++ [Event.skip f.name] } with hBdef
  obtain ⟨hC1, hC2, tlC, hCev, hCevs⟩ :=
    foldl_processFile_other cfg f.name post B hpost
  set C := post.foldl (processFile cfg) B with hCdef
  have hfold : (pre ++ f :: post).foldl (processFile cfg) ⟨coll0, [], [], 0⟩ =
      C := by
    rw [List.foldl_append]
    show post.foldl (processFile cfg) (processFile cfg P f) = C
    rw [processFile_skip hneedsA]
  have hrun : ingest_files cfg respond addOk (pre ++ f :: post) coll0 =
      ⟨C.coll ++ ((batchesOf cfg.batch_size C.batch_docs).map
          (batchAdded respond addOk)).flatten,
       C.events ++ ((batchesOf cfg.batch_size C.batch_docs).map
          (batchEvents respond addOk)).flatten,
       C.batch_docs, C.files_processed⟩ := by
    rw [ingest_files_eq, hfold]
  -- every phase-one event is a skip/delete of a candidate file's name,
  -- and the only event naming `f` is the skip
  have hCevAll : ∀ e ∈ C.events,
      e = Event.skip f.name ∨
      ∃ g, (g ∈ pre ∨ g ∈ post) ∧ g.name ≠ f.name ∧
        (e = Event.skip g.name ∨ e = Event.deleteSource g.name) := by
    intro e he
    rw [hCev] at he
    rcases List.mem_append.mp he with he | he
    · rw [hBdef] at he
      simp only at he
      rcases List.mem_append.mp he with he | he
      · rw [hAev] at he
        simp only at he
        rcases List.mem_append.mp he with he | he
        · simp at he
        · obtain ⟨g, hg, hor⟩ := hAevs e he
          exact Or.inr ⟨g, Or.inl hg, hpre g hg, hor⟩
      · exact Or.inl (by simpa using he)
    · obtain ⟨g, hg, hor⟩ := hCevs e he
      exact Or.inr ⟨g, Or.inr hg, hpost g hg, hor⟩
  -- no chunk of `f` is ever accumulated
  have hbd : ∀ d ∈ C.batch_docs, d.metadata.source ≠ f.name := by
    have hnil : C.batch_docs.filter
        (fun d => d.metadata.source == f.name) = [] := by
      rw [hC2, hBdef]
      simpa using hA2
    intro d hd
    have := List.filter_eq_nil_iff.mp hnil d hd
    simpa using this
  refine ⟨?_, ?_, ?_, ?_, ?_⟩
  · rw [hrun]
    simp only
    apply List.mem_append_left
    rw [hCev, hBdef]
    simp
  · rw [hrun]
    simp only
    intro hmem
    rcases List.mem_append.mp hmem with he | he
    · rcases hCevAll _ he with h | ⟨g, _, hgne, h | h⟩
      · exact absurd h (by simp)
      · exact absurd h (by simp)
      · exact hgne (Event.deleteSource.inj h.symm)
    · obtain ⟨ev, hev, hmem2⟩ := List.mem_flatten.mp he
      obtain ⟨b, _, rfl⟩ := List.mem_map.mp hev
      rcases batchEvents_shape respond addOk b _ hmem2 with ⟨ts, h⟩ | ⟨rs, h⟩ |
        ⟨ids, h⟩ <;> simp at h
  · rw [hrun]
    simp only
    exact hbd
  · rw [hrun]
    simp only
    unfold filterSource
    rw [List.filter_append]
    have hadd : ((batchesOf cfg.batch_size C.batch_docs).map
        (batchAdded respond addOk)).flatten.filter
        (fun x => x.metadata.source == f.name) = [] := by
      apply List.filter_eq_nil_iff.mpr
      intro x hx
      obtain ⟨b, hb, d, hd, hmeta⟩ := mem_flatten_batchAdded hx
      have hdne := hbd d (mem_of_mem_batchesOf hb hd)
      simp [hmeta, hdne]
    rw [hadd, List.append_nil]
    have h1 : C.coll.filter (fun x => x.metadata.source == f.name) =
        filterSource C.coll f.name := rfl
    rw [h1, hC1, hBdef]
    simpa using hA1
  · rw [hrun]
    simp only
    intro ts hts t ht
    rcases List.mem_append.mp hts with he | he
    · rcases hCevAll _ he with h | ⟨g, _, _, h | h⟩ <;> simp at h
    · obtain ⟨b, hb, rfl⟩ := mem_flatten_batchEvents_embed he
      obtain ⟨d, hd, rfl⟩ := List.mem_map.mp ht
      exact ⟨d, mem_of_mem_batchesOf hb hd, rfl⟩

theorem ingest_skips_unchanged_witness :
    Event.skip "f" ∈
      (ingest_files ⟨10, 2, 50⟩
        (fun ts => some ((List.range ts.length).map (fun i => ⟨i, [0]⟩)))
        (fun _ => true) [⟨"f", some "H", "T".toList⟩]
        [⟨"f_0", [0], "T".toList, ⟨"f", "H", 0⟩⟩]).events ∧
    filterSource (ingest_files ⟨10, 2, 50⟩
        (fun ts => some ((List.range ts.length).map (fun i => ⟨i, [0]⟩)))
        (fun _ => true) [⟨"f", some "H", "T".toList⟩]
        [⟨"f_0", [0], "T".toList, ⟨"f", "H", 0⟩⟩]).coll "f" =
      filterSource [⟨"f_0", [0], "T".toList, ⟨"f", "H", 0⟩⟩] "f" :=
  have h := ingest_skips_unchanged ⟨10, 2, 50⟩
    (fun ts => some ((List.range ts.length).map (fun i => ⟨i, [0]⟩)))
    (fun _ => true) [⟨"f_0", [0], "T".toList, ⟨"f", "H", 0⟩⟩]
    [] [] ⟨"f", some "H", "T".toList⟩ ⟨"f_0", [0], "T".toList, ⟨"f", "H", 0⟩⟩
    rfl rfl (by simp) (by simp)
  ⟨h.1, h.2.2.2.1⟩

lemma pySortByIndex_enum (E : List Char → List Int) (ts : List (List Char)) :
    pySortByIndex (ts.enum.map (fun p => (⟨p.1, E p.2⟩ : EmbedItem))) =
      ts.enum.map (fun p => (⟨p.1, E p.2⟩ : EmbedItem)) := by
  apply List.Sorted.insertionSort_eq
  unfold List.Sorted
  rw [List.pairwise_map]
  have h := List.pairwise_lt_range ts.length
  rw [← List.enum_map_fst ts, List.pairwise_map] at h
  exact h.imp (fun hab => le_of_lt hab)

lemma get_embeddings_inorder (E : List Char → List Int)
    (respond : List (List Char) → Option (List EmbedItem))
    (hresp : ∀ ts, respond ts =
      some (ts.enum.map (fun p => (⟨p.1, E p.2⟩ : EmbedItem))))
    (texts : List (List Char)) :
    get_embeddings respond texts =
      some (texts.map (fun t => E (pyReplaceNl t))) := by
  unfold get_embeddings
  rw [hresp]
  show some ((pySortByIndex ((texts.map pyReplaceNl).enum.map
      (fun p => (⟨p.1, E p.2⟩ : EmbedItem)))).map (fun x => x.embedding)) = _
  rw [pySortByIndex_enum]
  simp only [List.map_map, Option.some.injEq]
  have h1 : ((fun x : EmbedItem => x.embedding) ∘
      (fun p : Nat × List Char => (⟨p.1, E p.2⟩ : EmbedItem))) =
      (E ∘ Prod.snd) := rfl
  rw [h1, ← List.map_map E Prod.snd, List.enum_map_snd, List.map_map]
  rfl

lemma mkRecords_embedding (g : List Char → List Int) :
    ∀ (ids : List String) (texts : List (List Char)) (metas : List Meta)
      (r : Record), r ∈ mkRecords ids (texts.map g) texts metas →
      r.embedding = g r.document := by
  intro ids
  induction ids with
  | nil =>
    intro texts metas r h
    simp [mkRecords] at h
  | cons i is ih =>
    intro texts metas r h
    cases texts with
    | nil => simp [mkRecords] at h
    | cons t ts =>
      cases metas with
      | nil => simp [mkRecords] at h
      | cons m ms =>
        rcases List.mem_cons.mp h with h | h
        · subst h
          rfl
        · exact ih ts ms r h

lemma pyReplaceNl_ne_of_mem {t : List Char} (h : '\n' ∈ t) :
    pyReplaceNl t ≠ t := by
  intro heq
  have hnot : '\n' ∉ pyReplaceNl t := by
    intro hmem
    obtain ⟨c, _, hc⟩ := List.mem_map.mp hmem
    by_cases h' : c = '\n'
    · rw [if_pos h'] at hc
      exact absurd hc (by decide)
    · rw [if_neg h'] at hc
      exact h' hc
  apply hnot
  rw [heq]
  exact h

/-- C10: with an embedding capability that returns, for each submitted text,
the vector `E` of that text (in request order), every record an
`ingest_files` run upserts stores the vector of the *newline-cleaned* chunk
text while its stored document keeps the raw chunk text — so whenever the
chunk contains a newline, the embedded text differs from the stored text. -/
theorem ingest_embeds_cleaned (cfg : Cfg)
    (respond : List (List Char) → Option (List EmbedItem))
    (addOk : List Record → Bool) (files : List SourceFile)
    (coll0 : List Record) (E : List Char → List Int)
    (hresp : ∀ ts, respond ts =
      some (ts.enum.map (fun p => (⟨p.1, E p.2⟩ : EmbedItem)))) :
    ∀ recs, Event.storeAdd recs ∈
        (ingest_files cfg respond addOk files coll0).events →
      ∀ r ∈ recs, r.embedding = E (pyReplaceNl r.document) ∧
        ('\n' ∈ r.document → pyReplaceNl r.document ≠ r.document) := by
  intro recs hmem r hr
  rw [ingest_files_eq] at hmem
  rcases List.mem_append.mp hmem with he | he
  · obtain ⟨tl, hev, hshape⟩ :=
      foldl_processFile_events cfg files ⟨coll0, [], [], 0⟩
    rw [hev] at he
    rcases List.mem_append.mp he with he | he
    · simp at he
    · rcases hshape _ he with ⟨n, h⟩ | ⟨n, h⟩ <;> simp at h
  · obtain ⟨b, hb, hfail, hrecs⟩ := mem_flatten_batchEvents_add he
    subst hrecs
    unfold batchRecs at hr
    have hemb : batchEmbeds respond b =
        some ((b.map (fun d => d.text)).map (fun t => E (pyReplaceNl t))) := by
      unfold batchEmbeds
      exact get_embeddings_inorder E respond hresp _
    rw [hemb] at hr
    refine ⟨mkRecords_embedding (fun t => E (pyReplaceNl t)) _ _ _ r hr, ?_⟩
    intro hnl
    exact pyReplaceNl_ne_of_mem hnl

theorem ingest_embeds_cleaned_witness :
    (⟨"f_0", [97, 32, 98], "a\nb".toList, ⟨"f", "h", 0⟩⟩ : Record).embedding =
      (fun t : List Char => t.map (fun c => (c.toNat : Int)))
        (pyReplaceNl
          (⟨"f_0", [97, 32, 98], "a\nb".toList, ⟨"f", "h", 0⟩⟩ :
            Record).document) ∧
    ('\n' ∈ (⟨"f_0", [97, 32, 98], "a\nb".toList, ⟨"f", "h", 0⟩⟩ :
        Record).document →
      pyReplaceNl (⟨"f_0", [97, 32, 98], "a\nb".toList, ⟨"f", "h", 0⟩⟩ :
          Record).document ≠
        (⟨"f_0", [97, 32, 98], "a\nb".toList, ⟨"f", "h", 0⟩⟩ :
          Record).document) :=
  ingest_embeds_cleaned ⟨10, 2, 50⟩
    (fun ts => some (ts.enum.map (fun p =>
      (⟨p.1, p.2.map (fun c => (c.toNat : Int))⟩ : EmbedItem))))
    (fun _ => true) [⟨"f", some "h", "a\nb".toList⟩] []
    (fun t => t.map (fun c => (c.toNat : Int)))
    (fun _ => rfl)
    [⟨"f_0", [97, 32, 98], "a\nb".toList, ⟨"f", "h", 0⟩⟩]
    (by decide)
    ⟨"f_0", [97, 32, 98], "a\nb".toList, ⟨"f", "h", 0⟩⟩
    (by decide)

/-- C4 (counterexample): a file whose hashing fails but whose text is
readable is ingested with the sentinel `"error_hash"` stored as its
`file_hash`; on the next failing attempt `file_needs_update` compares
sentinel to sentinel and returns `false` — the file *is* silently skipped,
so the sentinel can equal a previously stored hash. -/
theorem sentinel_forces_update_counterexample :
    get_file_hash ⟨"f", none, "TEXT".toList⟩ = "error_hash" ∧
    file_needs_update
      (ingest_files ⟨10, 2, 50⟩
        (fun ts => some ((List.range ts.length).map (fun i => ⟨i, [0]⟩)))
        (fun _ => true) [⟨"f", none, "TEXT".toList⟩] []).coll
      "f" (get_file_hash ⟨"f", none, "TEXT".toList⟩) = false := by decide

/-- C4 (amended): `get_file_hash` returns the sentinel `"error_hash"` for an
unreadable file, and the sentinel (10 characters) can never equal a
*successfully computed* md5 hexdigest (32 characters); hence as long as
every hash stored for the source was computed successfully,
`file_needs_update(source, sentinel)` returns `true` and re-ingestion is
forced.  (If a previous run stored the sentinel itself — hashing failed but
reading succeeded — a subsequent failing attempt is skipped, as the
counterexample shows.) -/
theorem sentinel_forces_update (store : List Record) (f : SourceFile)
    (hfail : f.hashResult = none)
    (hstored : ∀ r ∈ store, r.metadata.source = f.name →
      r.metadata.file_hash.length = 32) :
    get_file_hash f = "error_hash" ∧
    file_needs_update store f.name (get_file_hash f) = true := by
  have hh : get_file_hash f = "error_hash" := by
    unfold get_file_hash
    rw [hfail]
  refine ⟨hh, ?_⟩
  rw [hh]
  unfold file_needs_update
  rcases hfind : store.find? (fun r => r.metadata.source == f.name) with _ | r
  · rw [hfind]
  · rw [hfind]
    have hr := List.mem_of_find?_eq_some hfind
    have hp := List.find?_some hfind
    have hsrc : r.metadata.source = f.name := by simpa using hp
    have hlen := hstored r hr hsrc
    show (r.metadata.file_hash != "error_hash") = true
    rw [bne_iff_ne]
    intro heq
    rw [heq] at hlen
    exact absurd hlen (by decide)

theorem sentinel_forces_update_witness :
    get_file_hash ⟨"f", none, "T".toList⟩ = "error_hash" ∧
    file_needs_update [⟨"f_0", [0], "T".toList,
        ⟨"f", "0123456789abcdef0123456789abcdef", 0⟩⟩] "f"
      (get_file_hash ⟨"f", none, "T".toList⟩) = true :=
  sentinel_forces_update
    [⟨"f_0", [0], "T".toList, ⟨"f", "0123456789abcdef0123456789abcdef", 0⟩⟩]
    ⟨"f", none, "T".toList⟩ rfl (by decide)

/-! ## Collection lifecycle: `truncate_collection` and `drop_collection`

The ChromaDB client state is the association of collection names to record
lists.  `get_or_create_collection` creates an empty collection when missing,
`delete_collection` removes an existing one and raises otherwise (the code
wraps it in `try/except`). -/

structure DB where
  collections : List (String × List Record)
deriving DecidableEq

def DB.hasColl (db : DB) (n : String) : Bool :=
  db.collections.any (fun p => p.1 == n)

def get_or_create_collection (db : DB) (n : String) : DB :=
  if db.hasColl n then db else ⟨db.collections ++ [(n, [])]⟩

def delete_collection (db : DB) (n : String) : Option DB :=
  if db.hasColl n then
    some ⟨db.collections.filter (fun p => !(p.1 == n))⟩
  else none

/-- The `VectorDBManager` state relevant to the lifecycle operations: the
client and the currently selected collection name. -/
structure Manager where
  db : DB
  collection_name : String
deriving DecidableEq

/-- Model of `_refresh_collection_obj`: `get_or_create_collection(collection_name)`. -/
def refreshCollection (m : Manager) : Manager :=
  ⟨get_or_create_collection m.db m.collection_name, m.collection_name⟩

/-- Model of `set_collection(name)`. -/
def set_collection (m : Manager) (n : String) : Manager :=
  refreshCollection ⟨m.db, n⟩

/-- The user-visible outcome of a lifecycle operation. -/
inductive CollMsg
  | policyError
  | dropped
  | truncated
  | opError
deriving DecidableEq

/-- Model of `truncate_collection`: delete the current collection and recreate it
empty; a failing delete is reported and leaves the state unchanged. -/
def truncate_collection (m : Manager) : Manager × CollMsg :=
  match delete_collection m.db m.collection_name with
  | some db' => (refreshCollection ⟨db', m.collection_name⟩, CollMsg.truncated)
  | none => (m, CollMsg.opError)

/-- Model of `drop_collection`: refuse to delete the reserved `"main_collection"`;
otherwise delete the current collection and fall back to the default. -/
def drop_collection (m : Manager) : Manager × CollMsg :=
  if m.collection_name == "main_collection" then (m, CollMsg.policyError)
  else
    match delete_collection m.db m.collection_name with
    | some db' => (set_collection ⟨db', m.collection_name⟩ "main_collection",
        CollMsg.dropped)
    | none => (m, CollMsg.opError)

/-- Model of `collection.count()` for the currently selected collection. -/
def collCount (m : Manager) : Nat :=
  match m.db.collections.find? (fun p => p.1 == m.collection_name) with
  | some p => p.2.length
  | none => 0

lemma find?_filter_not {α : Type} (p : α → Bool) (l : List α) :
    (l.filter (fun a => !(p a))).find? p = none := by
  induction l with
  | nil => rfl
  | cons a l ih =>
    by_cases h : p a
    · rw [List.filter_cons_of_neg (by simp [h])]
      exact ih
    · rw [List.filter_cons_of_pos (by simp [h]),
        List.find?_cons_of_neg _ (by simp [h])]
      exact ih

/-- C7: when the current collection is the reserved `"main_collection"`,
`drop_collection` is refused with a policy error and changes nothing — the
client state, all records and the current selection stay intact — while
`truncate_collection` succeeds (given the collection exists, as it always
does after `_refresh_collection_obj`) and leaves `"main_collection"`
existing with zero records. -/
theorem drop_refused_truncate_empties (m : Manager)
    (hname : m.collection_name = "main_collection")
    (hex : m.db.hasColl "main_collection" = true) :
    drop_collection m = (m, CollMsg.policyError) ∧
    (truncate_collection m).2 = CollMsg.truncated ∧
    (truncate_collection m).1.collection_name = m.collection_name ∧
    (truncate_collection m).1.db.hasColl "main_collection" = true ∧
    collCount (truncate_collection m).1 = 0 := by
  have hdel : delete_collection m.db m.collection_name =
      some ⟨m.db.collections.filter
        (fun p => !(p.1 == m.collection_name))⟩ := by
    unfold delete_collection
    rw [hname, if_pos hex]
  have hmiss : (DB.mk (m.db.collections.filter
      (fun p => !(p.1 == m.collection_name)))).hasColl
        m.collection_name = false := by
    unfold DB.hasColl
    rw [Bool.eq_false_iff, Ne, List.any_eq_true]
    rintro ⟨p, hp, hpn⟩
    have := List.of_mem_filter hp
    rw [hpn] at this
    simp at this
  refine ⟨?_, ?_, ?_, ?_, ?_⟩
  · unfold drop_collection
    rw [hname]
    simp
  · unfold truncate_collection
    rw [hdel]
  · unfold truncate_collection
    rw [hdel]
    rfl
  · unfold truncate_collection
    rw [hdel]
    show (refreshCollection _).db.hasColl "main_collection" = true
    unfold refreshCollection get_or_create_collection
    simp only [hmiss]
    rw [if_neg (by simp)]
    unfold DB.hasColl
    rw [List.any_eq_true]
    exact ⟨("main_collection", []), by simp [hname], by simp⟩
  · unfold truncate_collection
    rw [hdel]
    show collCount (refreshCollection _) = 0
    unfold refreshCollection get_or_create_collection collCount
    simp only [hmiss]
    rw [if_neg (by simp)]
    simp only
    rw [List.find?_append, find?_filter_not]
    simp

theorem drop_refused_truncate_empties_witness :
    drop_collection ⟨⟨[("main_collection",
        [⟨"f_0", [0], "T".toList, ⟨"f", "H", 0⟩⟩])]⟩, "main_collection"⟩ =
      (⟨⟨[("main_collection", [⟨"f_0", [0], "T".toList, ⟨"f", "H", 0⟩⟩])]⟩,
        "main_collection"⟩, CollMsg.policyError) ∧
    (truncate_collection ⟨⟨[("main_collection",
        [⟨"f_0", [0], "T".toList, ⟨"f", "H", 0⟩⟩])]⟩,
        "main_collection"⟩).2 = CollMsg.truncated ∧
    (truncate_collection ⟨⟨[("main_collection",
        [⟨"f_0", [0], "T".toList, ⟨"f", "H", 0⟩⟩])]⟩,
        "main_collection"⟩).1.collection_name = "main_collection" ∧
    (truncate_collection ⟨⟨[("main_collection",
        [⟨"f_0", [0], "T".toList, ⟨"f", "H", 0⟩⟩])]⟩,
        "main_collection"⟩).1.db.hasColl "main_collection" = true ∧
    collCount (truncate_collection ⟨⟨[("main_collection",
        [⟨"f_0", [0], "T".toList, ⟨"f", "H", 0⟩⟩])]⟩,
        "main_collection"⟩).1 = 0 :=
  drop_refused_truncate_empties
    ⟨⟨[("main_collection", [⟨"f_0", [0], "T".toList, ⟨"f", "H", 0⟩⟩])]⟩,
      "main_collection"⟩ rfl (by decide)
